import Mathlib

/-!
Verification of the SmartNewsSynthesizer retrieval pipeline.

This file gives a shallow embedding of the pure core of the repository
(`app/ingestion.py`, `app/embed_index.py`, `app/rag.py`, `app/ollama_client.py`)
and proves or refutes the frozen claims about it.

Modelling conventions:
* Python `str.split()` (whitespace splitting) and `" ".join` are embedded at the
  character-list level (`splitWsAux`, `joinSpace`).
* Python machine behaviour that can diverge (the chunker's `while` loop) is
  embedded with explicit fuel; `none` means the loop has not exited within the
  given fuel, and a result that is `none` for every fuel is a non-terminating run.
* Python `int` is `Int`; list slices use Python's clamping rules (`pySlice`).
* float32 distances of the embedding/search stack are modelled with exact `ℚ`
  arithmetic; the claims under study are about ranks, ordering and alignment,
  not about rounding.
* JSON values are modelled by `PyJson`; dictionaries keep the textual key order
  with later duplicates winning, as CPython's `json` module produces.
-/

namespace SNS

/-! ## Python string splitting and joining (`text.split()`, `" ".join(...)`) -/
/-- Whitespace test used by Python's `str.split()` with no argument. -/
def isWs (c : Char) : Bool := c.isWhitespace

/-- Accumulator-style embedding of `str.split()`: walk the characters, collecting
the current word in reverse in `acc`; whitespace runs are collapsed and empty
words are dropped, exactly as Python's argumentless `split` does. -/
def splitWsAux : List Char → List Char → List (List Char)
  | [], acc => if acc = [] then [] else [acc.reverse]
  | c :: cs, acc =>
    if isWs c then
      if acc = [] then splitWsAux cs []
      else acc.reverse :: splitWsAux cs []
    else splitWsAux cs (c :: acc)

/-- Embedding of Python `text.split()`. -/
def pySplit (s : String) : List String :=
  (splitWsAux s.data []).map String.mk

/-- Embedding of Python `" ".join(ws)`. -/
def joinSpace : List String → String
  | [] => ""
  | [w] => w
  | w :: ws => w ++ " " ++ joinSpace ws

/-- Character-level counterpart of `joinSpace`, used in proofs. -/
def joinCh : List (List Char) → List Char
  | [] => []
  | [w] => w
  | w :: ws => w ++ ' ' :: joinCh ws

/-- A word as produced by `str.split()`: non-empty and containing no whitespace. -/
def WordOk (w : List Char) : Prop := w ≠ [] ∧ ∀ c ∈ w, isWs c = false

/-! ## Python list slicing with `int` bounds -/
/-- Clamp one slice bound the way Python does for `xs[a:b]`. -/
def pyBound (n : Nat) (a : Int) : Nat :=
  if a < 0 then (a + n).toNat else min a.toNat n

/-- Embedding of the Python slice `xs[a:b]`. -/
def pySlice {α : Type} (xs : List α) (a b : Int) : List α :=
  (xs.take (pyBound xs.length b)).drop (pyBound xs.length a)

/-! ## The chunker (`app/ingestion.py`, `chunk_text`) -/
/-- Fuel-based embedding of the `while i < len(words)` loop of `chunk_text`.
Each fuel step is one loop iteration; `none` means the loop has not exited
within the given fuel.  The loop variable `i` is a Python `int`, so it is
modelled by `Int` (for `overlap > chunk_size` it really goes negative). -/
def chunkLoopFuel (words : List String) (chunk_size overlap : Int) :
    Nat → Int → Option (List String)
  | 0, _ => none
  | fuel + 1, i =>
    if i < (words.length : Int) then
      (chunkLoopFuel words chunk_size overlap fuel (i + (chunk_size - overlap))).map
        (fun rest => joinSpace (pySlice words i (i + chunk_size)) :: rest)
    else
      some []

/-- Embedding of `chunk_text(text, chunk_size, overlap)` from `app/ingestion.py`:
split into words, then run the sliding-window loop from `i = 0`. -/
def chunk_text (text : String) (chunk_size overlap : Int) (fuel : Nat) : Option (List String) :=
  chunkLoopFuel (pySplit text) chunk_size overlap fuel 0

/-! ## Article records and the index builder (`app/embed_index.py`) -/
/-- One on-disk article record `data/<doc_id>.json`, as read back by `collect_docs`.
Fields other than `chunks` come from `rec.get(...)` and may be JSON `null`,
hence `Option`; `chunks` defaults to `[]` (`rec.get("chunks", [])`). -/
structure DocRecord where
  doc_id : Option String
  title : Option String
  url : Option String
  source : Option String
  publishedAt : Option String
  chunks : List String
deriving DecidableEq

/-- One metadata dictionary as appended by `collect_docs`.  The keys written there
are exactly `doc_id`, `title`, `url`, `source`, `publishedAt`, `chunk_index`;
`chunk_text` and `snippet` are absent (`none`) until the RAG layer adds them. -/
structure MetadataEntry where
  doc_id : Option String
  title : Option String
  url : Option String
  source : Option String
  publishedAt : Option String
  chunk_index : Option Int
  chunk_text : Option String
  snippet : Option String
deriving DecidableEq

/-- The metadata dictionary `collect_docs` builds for chunk `i` of record `r`. -/
def mkMetadata (r : DocRecord) (i : Nat) : MetadataEntry :=
  { doc_id := r.doc_id, title := r.title, url := r.url, source := r.source,
    publishedAt := r.publishedAt, chunk_index := some (i : Int),
    chunk_text := none, snippet := none }

/-- One step of the `for p in paths` loop of `collect_docs`: append the record's
chunks to `docs` and the parallel metadata dictionaries to `metadatas`. -/
def collectStep (acc : List String × List MetadataEntry) (r : DocRecord) :
    List String × List MetadataEntry :=
  (acc.1 ++ r.chunks, acc.2 ++ (List.range r.chunks.length).map (mkMetadata r))

/-- Embedding of `collect_docs`: the input list stands for the records parsed from
the path-sorted `data/*.json` files, in that order.  With no files it raises. -/
def collect_docs (recs : List DocRecord) :
    Except String (List String × List MetadataEntry) :=
  if recs = [] then
    Except.error "No json files found in data. Run ingestion first."
  else
    Except.ok (recs.foldl collectStep ([], []))

/-- The persisted index artifacts: vectors and the parallel metadata list. -/
structure IndexData where
  vectors : List (List ℚ)
  metadatas : List MetadataEntry
deriving DecidableEq

/-- Embedding of `build_faiss_index`: encode the docs in order into a flat L2
index (which stores vectors in insertion order) and persist the metadata list
alongside.  The sentence-transformer encoder is an abstract parameter. -/
def build_faiss_index (encode : String → List ℚ) (docs : List String)
    (metadatas : List MetadataEntry) : IndexData :=
  { vectors := docs.map encode, metadatas := metadatas }

/-! ## The search index and query engine (`app/embed_index.py`) -/
/-- Squared Euclidean distance of `IndexFlatL2`; float32 arithmetic is modelled
exactly over `ℚ`. -/
def sqL2 (q v : List ℚ) : ℚ := ((q.zip v).map (fun p => (p.1 - p.2) ^ 2)).sum

/-- Sentinel distance faiss leaves in result slots beyond the corpus size
(stands for `HUGE_VALF`). -/
def padDist : ℚ := 10 ^ 38

/-- Order on (distance, stored position) pairs used by the search model. -/
def distLe (a b : ℚ × Nat) : Prop := a.1 ≤ b.1

instance : DecidableRel distLe := fun a b => inferInstanceAs (Decidable (a.1 ≤ b.1))

instance : IsTotal (ℚ × Nat) distLe := ⟨fun a b => le_total a.1 b.1⟩

instance : IsTrans (ℚ × Nat) distLe := ⟨fun _ _ _ h1 h2 => le_trans h1 h2⟩

/-- Modelled from the spec: `index.search` of the faiss flat L2 index is not part of
this repository.  Per the spec it is an exact brute-force search returning, for the
single query row, the `k` smallest distances in non-decreasing order together with
the stored positions they belong to; when `k` exceeds the number of stored vectors
the remaining slots carry the sentinel label `-1` and the sentinel distance, per the
library's native padding behaviour. -/
def faissSearch (stored : List (List ℚ)) (q : List ℚ) (k : Nat) : List ℚ × List Int :=
  let pairs := ((stored.map (sqL2 q)).enum).map (fun p => (p.2, p.1))
  let sorted := List.insertionSort distLe pairs
  let top := sorted.take k
  (top.map Prod.fst ++ List.replicate (k - top.length) padDist,
   top.map (fun p => ((p.2 : Nat) : Int)) ++ List.replicate (k - top.length) (-1))

/-- A ranked query result dictionary. -/
structure SearchResult where
  rank : Nat
  score : ℚ
  metadata : MetadataEntry
deriving DecidableEq

/-- Python index arithmetic for `xs[i]` with a possibly negative `int`. -/
def pyIndex (n : Nat) (i : Int) : Int := if i < 0 then i + n else i

/-- Python `metadatas[idx]`: negative indices count from the end, out-of-range
raises `IndexError`. -/
def pyGetMeta (ms : List MetadataEntry) (i : Int) : Except String MetadataEntry :=
  if 0 ≤ pyIndex ms.length i then
    match ms.get? (pyIndex ms.length i).toNat with
    | some m => Except.ok m
    | none => Except.error "IndexError: list index out of range"
  else Except.error "IndexError: list index out of range"

/-- The `for rank, idx in enumerate(I[0])` loop of `query_index`: look the index
up in the metadata list, pair it with the distance at the same position, and
assign 1-based ranks in loop order. -/
def buildResults (ms : List MetadataEntry) (D : List ℚ) :
    List Int → Nat → Except String (List SearchResult)
  | [], _ => Except.ok []
  | v :: I, rank =>
    match pyGetMeta ms v with
    | Except.error e => Except.error e
    | Except.ok m =>
      match buildResults ms D I (rank + 1) with
      | Except.error e => Except.error e
      | Except.ok rs =>
        Except.ok ({ rank := rank + 1, score := D.getD rank 0, metadata := m } :: rs)

/-- Embedding of `query_index`: embed the query, search the persisted index, and
zip distances, looked-up metadata and 1-based ranks into result dictionaries. -/
def query_index (idx : IndexData) (encode : String → List ℚ)
    (query_text : String) (top_k : Nat) : Except String (List SearchResult) :=
  buildResults idx.metadatas (faissSearch idx.vectors (encode query_text) top_k).1
    (faissSearch idx.vectors (encode query_text) top_k).2 0

/-- Concrete corpus used by the query-engine witnesses. -/
def demoEncode : String → List ℚ := fun _ => [0]

/-- Concrete metadata entry used by the query-engine witnesses. -/
def demoMeta (i : Nat) : MetadataEntry :=
  ⟨some "d", some "t", some "u", some "s", some "p", some (i : Int), none, none⟩

/-- Concrete two-vector index used by the query-engine witnesses. -/
def demoIndex : IndexData :=
  { vectors := [[0], [1]], metadatas := [demoMeta 0, demoMeta 1] }

/-! ## Evidence assembly (`app/rag.py`) -/
/-- The placeholder used when a passage's text cannot be recovered. -/
def placeholderText : String := "(passage text unavailable)"

/-- Python `a or b` for an optional string `a`: `None` and `""` are falsy. -/
def orFalsy (a : Option String) (b : String) : String :=
  match a with
  | some s => if s = "" then b else s
  | none => b

/-- The `data_map` of `prepare_retrieved_with_texts`: one entry per readable
`data/*.json` file, keyed by `rec.get("doc_id")`.  Unreadable files are skipped
by the `except: continue`, hence simply absent from the input list. -/
def buildDataMap (files : List DocRecord) : List (Option String × DocRecord) :=
  files.map (fun r => (r.doc_id, r))

/-- Python dict lookup in `data_map`: the last binding of a key wins. -/
def dataMapLookup (m : List (Option String × DocRecord)) (k : Option String) :
    Option DocRecord :=
  (m.reverse.find? (fun p => decide (p.1 = k))).map Prod.snd

/-- The chunk-text lookup of `prepare_retrieved_with_texts`: a truthy `doc_id`
present in the data map, an `int` `chunk_index` and an in-range position are
required, otherwise no text is found. -/
def chunkLookup (m : List (Option String × DocRecord)) (md : MetadataEntry) :
    Option String :=
  match md.doc_id with
  | none => none
  | some did =>
    if did = "" then none
    else
      match dataMapLookup m (some did) with
      | none => none
      | some r =>
        match md.chunk_index with
        | none => none
        | some ci =>
          if 0 ≤ ci ∧ ci < (r.chunks.length : Int) then r.chunks.get? ci.toNat
          else none

/-- The per-item enrichment of `prepare_retrieved_with_texts`: copy the metadata
dict and set `chunk_text` to the looked-up chunk if truthy, else to the
pre-existing `chunk_text` if truthy, else to the placeholder. -/
def enrichMeta (m : List (Option String × DocRecord)) (md : MetadataEntry) :
    MetadataEntry :=
  match chunkLookup m md with
  | some t =>
    if t = "" then { md with chunk_text := some (orFalsy md.chunk_text placeholderText) }
    else { md with chunk_text := some t }
  | none => { md with chunk_text := some (orFalsy md.chunk_text placeholderText) }

/-- Embedding of `prepare_retrieved_with_texts`: enrich each result's metadata
copy with the actual chunk text, preserving rank and score. -/
def prepare_retrieved_with_texts (files : List DocRecord)
    (raw_results : List SearchResult) : List SearchResult :=
  raw_results.map (fun item =>
    { rank := item.rank, score := item.score,
      metadata := enrichMeta (buildDataMap files) item.metadata })

/-- Greedy line filling over a word list, current line passed explicitly. -/
def fillAux (width : Nat) : List String → String → List String
  | [], cur => [cur]
  | w :: ws, cur =>
    if cur.length + 1 + w.length ≤ width then fillAux width ws (cur ++ " " ++ w)
    else cur :: fillAux width ws w

/-- Modelled from the spec: Python's `textwrap.fill(text, width)` (standard library,
not part of this repository) re-wraps the text's words into lines of at most
`width` characters, greedily; this model does not break single words longer than
the width. -/
def wrapFill (width : Nat) (s : String) : String :=
  match pySplit s with
  | [] => ""
  | w :: ws => String.intercalate "\n" (fillAux width ws w)

/-- Python `str(x)` for the optional `chunk_index` interpolated into the header. -/
def chunkIndexStr : Option Int → String
  | none => "None"
  | some i => toString i

/-- One citation-map entry of `build_evidence_block`. -/
structure CitationEntry where
  idx : Nat
  title : String
  url : String
  source : String
deriving DecidableEq

/-- The passage text `build_evidence_block` selects for one result. -/
def passageText (md : MetadataEntry) : String :=
  orFalsy md.chunk_text (orFalsy md.snippet placeholderText)

/-- The header line `build_evidence_block` prints for result number `i`. -/
def evidenceHeader (i : Nat) (md : MetadataEntry) : String :=
  "[" ++ toString i ++ "] (" ++ orFalsy md.source "" ++ ") " ++ orFalsy md.title "Untitled" ++
    " — " ++ orFalsy md.publishedAt "" ++ " — chunk:" ++ chunkIndexStr md.chunk_index

/-- Embedding of `build_evidence_block`: number the retrieved results from 1, emit
a header line, the wrapped passage text and a blank line per result, and build the
parallel citation map. -/
def build_evidence_block (retrieved : List SearchResult) : String × List CitationEntry :=
  (String.intercalate "\n"
    ((retrieved.enum.map (fun p =>
      [evidenceHeader (p.1 + 1) p.2.metadata,
       wrapFill 500 (passageText p.2.metadata), ""])).flatten),
   retrieved.enum.map (fun p =>
     { idx := p.1 + 1, title := orFalsy p.2.metadata.title "Untitled",
       url := orFalsy p.2.metadata.url "", source := orFalsy p.2.metadata.source "" }))

/-! ## Generation-response parsing (`app/ollama_client.py`) -/
/-- JSON values as Python's `json` module produces them; numbers are modelled
exactly over `ℚ`. -/
inductive PyJson where
  | null : PyJson
  | bool (b : Bool) : PyJson
  | num (q : ℚ) : PyJson
  | str (s : String) : PyJson
  | arr (elems : List PyJson) : PyJson
  | obj (fields : List (String × PyJson)) : PyJson

/-- JSON whitespace accepted between tokens. -/
def jsonWs (c : Char) : Bool := c == ' ' || c == '\t' || c == '\n' || c == '\x0d'

/-- Skip JSON whitespace. -/
def skipJsonWs (cs : List Char) : List Char := cs.dropWhile jsonWs

/-- Hexadecimal digit value. -/
def hexVal (c : Char) : Option Nat :=
  if '0' ≤ c ∧ c ≤ '9' then some (c.toNat - 48)
  else if 'a' ≤ c ∧ c ≤ 'f' then some (c.toNat - 87)
  else if 'A' ≤ c ∧ c ≤ 'F' then some (c.toNat - 55)
  else none

/-- Parse the body of a JSON string literal (after the opening quote), returning
the decoded string and the remaining input. -/
def parseStringAux : List Char → List Char → Option (String × List Char)
  | [], _ => none
  | c :: rest, acc =>
    if c = '"' then some (String.mk acc.reverse, rest)
    else if c = '\\' then
      match rest with
      | [] => none
      | e :: rest2 =>
        if e = '"' then parseStringAux rest2 ('"' :: acc)
        else if e = '\\' then parseStringAux rest2 ('\\' :: acc)
        else if e = '/' then parseStringAux rest2 ('/' :: acc)
        else if e = 'b' then parseStringAux rest2 ('\x08' :: acc)
        else if e = 'f' then parseStringAux rest2 ('\x0c' :: acc)
        else if e = 'n' then parseStringAux rest2 ('\n' :: acc)
        else if e = 'r' then parseStringAux rest2 ('\x0d' :: acc)
        else if e = 't' then parseStringAux rest2 ('\t' :: acc)
        else if e = 'u' then
          match rest2 with
          | h1 :: h2 :: h3 :: h4 :: rest3 =>
            match hexVal h1, hexVal h2, hexVal h3, hexVal h4 with
            | some a, some b, some c', some d =>
              parseStringAux rest3 (Char.ofNat (((a * 16 + b) * 16 + c') * 16 + d) :: acc)
            | _, _, _, _ => none
          | _ => none
        else none
    else parseStringAux rest (c :: acc)

/-- Take a maximal run of decimal digits. -/
def takeDigits : List Char → List Char × List Char
  | [] => ([], [])
  | c :: cs =>
    if c.isDigit then
      ((c :: (takeDigits cs).1), (takeDigits cs).2)
    else ([], c :: cs)

/-- Decimal value of a digit run. -/
def digitsToNat (ds : List Char) : Nat := ds.foldl (fun n c => n * 10 + (c.toNat - 48)) 0

/-- Parse the integer part per the JSON grammar: `0`, or a nonzero digit followed
by digits. -/
def parseIntPart : List Char → Option (Nat × List Char)
  | [] => none
  | c :: cs =>
    if c = '0' then some (0, cs)
    else if c.isDigit then
      some (digitsToNat (c :: (takeDigits cs).1), (takeDigits cs).2)
    else none

/-- Parse a JSON number (sign, integer part, optional fraction and exponent)
exactly, into `ℚ`. -/
def parseNumber (cs0 : List Char) : Option (ℚ × List Char) :=
  let signed : Bool × List Char :=
    match cs0 with
    | '-' :: r => (true, r)
    | _ => (false, cs0)
  match parseIntPart signed.2 with
  | none => none
  | some (ip, cs2) =>
    let frac : List Char × List Char :=
      match cs2 with
      | '.' :: r =>
        if (takeDigits r).1 = [] then ([], cs2) else takeDigits r
      | _ => ([], cs2)
    let ex : Option (Bool × List Char) × List Char :=
      match frac.2 with
      | e :: r =>
        if e = 'e' ∨ e = 'E' then
          match r with
          | '+' :: r2 =>
            if (takeDigits r2).1 = [] then (none, frac.2)
            else (some (false, (takeDigits r2).1), (takeDigits r2).2)
          | '-' :: r2 =>
            if (takeDigits r2).1 = [] then (none, frac.2)
            else (some (true, (takeDigits r2).1), (takeDigits r2).2)
          | _ =>
            if (takeDigits r).1 = [] then (none, frac.2)
            else (some (false, (takeDigits r).1), (takeDigits r).2)
        else (none, frac.2)
      | [] => (none, frac.2)
    let mantissa : ℚ := (ip : ℚ) + (digitsToNat frac.1 : ℚ) / ((10 : ℚ) ^ frac.1.length)
    let expv : Int :=
      match ex.1 with
      | none => 0
      | some (sgn, ds) => if sgn then -(digitsToNat ds : Int) else (digitsToNat ds : Int)
    let v : ℚ := mantissa * (10 : ℚ) ^ expv
    some (if signed.1 then -v else v, ex.2)

mutual

/-- Parse one JSON value starting exactly at the head of the input (fuel-indexed;
the callers supply fuel exceeding the input length, which one-character-per-level
consumption makes sufficient). -/
def parseValue : Nat → List Char → Option (PyJson × List Char)
  | 0, _ => none
  | fuel + 1, cs =>
    match cs with
    | [] => none
    | c :: rest =>
      if c = '{' then parseObjFields fuel (skipJsonWs rest) [] true
      else if c = '[' then parseArrElems fuel (skipJsonWs rest) [] true
      else if c = '"' then
        match parseStringAux rest [] with
        | some p => some (PyJson.str p.1, p.2)
        | none => none
      else if c = 't' then
        match rest with
        | 'r' :: 'u' :: 'e' :: r => some (PyJson.bool true, r)
        | _ => none
      else if c = 'f' then
        match rest with
        | 'a' :: 'l' :: 's' :: 'e' :: r => some (PyJson.bool false, r)
        | _ => none
      else if c = 'n' then
        match rest with
        | 'u' :: 'l' :: 'l' :: r => some (PyJson.null, r)
        | _ => none
      else
        match parseNumber cs with
        | some p => some (PyJson.num p.1, p.2)
        | none => none

/-- Parse the fields of a JSON object after the opening brace (and whitespace);
`first` is true when no field has been read yet, so that a closing brace is only
accepted at the start or after a completed field, never after a comma. -/
def parseObjFields : Nat → List Char → List (String × PyJson) → Bool →
    Option (PyJson × List Char)
  | 0, _, _, _ => none
  | fuel + 1, cs, acc, first =>
    match cs with
    | '"' :: rest =>
      match parseStringAux rest [] with
      | none => none
      | some (key, rest2) =>
        match skipJsonWs rest2 with
        | ':' :: rest3 =>
          match parseValue fuel (skipJsonWs rest3) with
          | none => none
          | some (v, rest4) =>
            match skipJsonWs rest4 with
            | ',' :: rest5 => parseObjFields fuel (skipJsonWs rest5) ((key, v) :: acc) false
            | '}' :: rest5 => some (PyJson.obj ((key, v) :: acc).reverse, rest5)
            | _ => none
        | _ => none
    | '}' :: rest => if first then some (PyJson.obj acc.reverse, rest) else none
    | _ => none

/-- Parse the elements of a JSON array after the opening bracket (and whitespace). -/
def parseArrElems : Nat → List Char → List PyJson → Bool → Option (PyJson × List Char)
  | 0, _, _, _ => none
  | fuel + 1, cs, acc, first =>
    match cs with
    | ']' :: rest => if first then some (PyJson.arr acc.reverse, rest) else none
    | _ =>
      match parseValue fuel cs with
      | none => none
      | some (v, rest) =>
        match skipJsonWs rest with
        | ',' :: rest2 => parseArrElems fuel (skipJsonWs rest2) (v :: acc) false
        | ']' :: rest2 => some (PyJson.arr (v :: acc).reverse, rest2)
        | _ => none

end

/-- Python `json.JSONDecoder().raw_decode(s, idx)` at position `idx`: decode one
JSON value starting exactly there, returning the value and the remaining input. -/
def pyRawDecode (cs : List Char) : Option (PyJson × List Char) :=
  parseValue (cs.length + 1) cs

/-- The scan loop of `_extract_json_objects_from_text`: find the next `{`, try
`raw_decode` there; on success continue after the decoded object, on failure
continue one character past the `{`. -/
def extractLoop : Nat → List Char → List PyJson
  | 0, _ => []
  | fuel + 1, cs =>
    match cs.dropWhile (fun c => !(c == '{')) with
    | [] => []
    | c :: rest =>
      match pyRawDecode (c :: rest) with
      | some (o, after) => o :: extractLoop fuel after
      | none => extractLoop fuel rest

/-- Embedding of `_extract_json_objects_from_text`. -/
def extract_json_objects_from_text (s : String) : List PyJson :=
  extractLoop (s.data.length + 1) s.data

/-- Python truthiness of a JSON value. -/
def pyTruthy : PyJson → Bool
  | PyJson.null => false
  | PyJson.bool b => b
  | PyJson.num q => decide (q ≠ 0)
  | PyJson.str s => decide (s ≠ "")
  | PyJson.arr xs => !xs.isEmpty
  | PyJson.obj fs => !fs.isEmpty

/-- Python dict `get` on a parsed JSON object: the last binding of a key wins. -/
def objGet (fields : List (String × PyJson)) (k : String) : Option PyJson :=
  (fields.reverse.find? (fun p => decide (p.1 = k))).map Prod.snd

/-- Python `a or b` over optional JSON values. -/
def pyOrJson (a b : Option PyJson) : Option PyJson :=
  match a with
  | some v => if pyTruthy v then some v else b
  | none => b

/-- The fragments one parsed object contributes in `_assemble_responses_from_objs`.
Non-dict values contribute nothing (`continue`); the key cascade is `response`
(string), then `text` (string), then `output` (list of strings or of dicts with a
`response` key of any type, or a string), then `message.content or message.text`
(string).  The `output`-list branch appends `it["response"]` of whatever type, so
fragments stay `PyJson`. -/
def partsOfObj : PyJson → List PyJson
  | PyJson.obj fields =>
    match objGet fields "response" with
    | some (PyJson.str s) => [PyJson.str s]
    | _ =>
      match objGet fields "text" with
      | some (PyJson.str s) => [PyJson.str s]
      | _ =>
        match objGet fields "output" with
        | some (PyJson.arr items) =>
          (items.map (fun it =>
            match it with
            | PyJson.str s => [PyJson.str s]
            | PyJson.obj f2 =>
              match objGet f2 "response" with
              | some v => [v]
              | none => []
            | _ => [])).flatten
        | some (PyJson.str s) => [PyJson.str s]
        | some _ => []
        | none =>
          match objGet fields "message" with
          | some (PyJson.obj msg) =>
            match pyOrJson (objGet msg "content") (objGet msg "text") with
            | some (PyJson.str s) => [PyJson.str s]
            | _ => []
          | _ => []
  | _ => []

/-- Python `"".join(parts)`: every part must be a string, else `TypeError`. -/
def pyJoinStr : List PyJson → Except String String
  | [] => Except.ok ""
  | PyJson.str s :: rest =>
    match pyJoinStr rest with
    | Except.ok r => Except.ok (s ++ r)
    | Except.error e => Except.error e
  | _ :: _ => Except.error "TypeError: sequence item: expected str instance"

/-- Python `str.strip()`. -/
def pyStrip (s : String) : String :=
  String.mk (((s.data.dropWhile isWs).reverse.dropWhile isWs).reverse)

/-- Embedding of `_assemble_responses_from_objs`: skip non-dict objects, collect
each dict's fragments in arrival order, join with no separator and strip. -/
def assemble_responses_from_objs (objs : List PyJson) : Except String String :=
  match pyJoinStr (objs.map partsOfObj).flatten with
  | Except.ok s => Except.ok (pyStrip s)
  | Except.error e => Except.error e

/-! ## Ingestion and the on-disk store (`app/ingestion.py`) -/
/-- One article dictionary as returned by the news API (`fetch_news`). -/
structure FetchedArticle where
  url : Option String
  title : Option String
  sourceName : Option String
  publishedAt : Option String
  content : Option String
  description : Option String
deriving DecidableEq

/-- The dictionary returned by `extract_full_text` (scraper output; on failure all
fields are `None` and `authors` empty). -/
structure ExtractResult where
  title : Option String
  text : Option String
  publish_date : Option String
  authors : List String
deriving DecidableEq

/-- Modelled from the spec: `doc_id_from_url` computes
`hashlib.sha1(url.encode()).hexdigest()`; the SHA-1 compression is a standard
library routine outside this repository, and what the pipeline relies on is that
the digest is a deterministic function of the URL alone, so it is modelled by a
deterministic hexadecimal encoding of the URL's characters. -/
def doc_id_from_url (url : String) : String :=
  String.intercalate "." (url.data.map (fun c => String.mk (Nat.toDigits 16 c.toNat)))

/-- Python `a or b` where `a`, `b` are optional strings: `None` and `""` are falsy. -/
def pyOrStr (a b : Option String) : Option String :=
  match a with
  | some s => if s = "" then b else some s
  | none => b

/-- Writing `data/<key>.json` with mode `"w"`: create or overwrite. -/
def storeWrite (st : List (String × DocRecord)) (key : String) (v : DocRecord) :
    List (String × DocRecord) :=
  (key, v) :: st.filter (fun p => !(p.1 == key))

/-- Reading `data/<key>.json` from the store. -/
def storeRead (st : List (String × DocRecord)) (key : String) : Option DocRecord :=
  (st.find? (fun p => p.1 == key)).map Prod.snd

/-- The `doc_record` dictionary `ingest_query` builds for one article with truthy
URL `url` and truthy full text `ft`.  The chunker is called with its defaults
`chunk_size=350, overlap=50`; since `50 < 350` the fuel `len + 1` always suffices
(`chunkLoopFuel_terminates`), so the `getD` default is never taken. -/
def ingestRecord (extract : String → ExtractResult) (art : FetchedArticle)
    (url ft : String) : DocRecord :=
  { doc_id := some (doc_id_from_url url),
    title := pyOrStr (extract url).title art.title,
    url := some url,
    source := art.sourceName,
    publishedAt := art.publishedAt,
    chunks := (chunk_text ft 350 50 ((pySplit ft).length + 1)).getD [] }

/-- One iteration of the `for art in articles` loop of `ingest_query`: skip
articles without a truthy URL or truthy full text; otherwise build the record,
write (or overwrite) `data/<doc_id>.json`, and append the record to the run's
result list. -/
def ingestStep (extract : String → ExtractResult)
    (acc : List (String × DocRecord) × List DocRecord) (art : FetchedArticle) :
    List (String × DocRecord) × List DocRecord :=
  match art.url with
  | none => acc
  | some url =>
    if url = "" then acc
    else
      match pyOrStr (extract url).text (pyOrStr art.content art.description) with
      | none => acc
      | some ft =>
        if ft = "" then acc
        else
          (storeWrite acc.1 (doc_id_from_url url) (ingestRecord extract art url ft),
           acc.2 ++ [ingestRecord extract art url ft])

/-- Embedding of `ingest_query`: fold the per-article step over the fetched
articles, starting from the current on-disk store; returns the updated store and
this run's ingested records.  The scraper is an abstract parameter. -/
def ingest_query (extract : String → ExtractResult) (articles : List FetchedArticle)
    (store : List (String × DocRecord)) :
    List (String × DocRecord) × List DocRecord :=
  articles.foldl (ingestStep extract) (store, [])

/-! ## Theorems -/

theorem joinSpace_data : ∀ ws : List String, (joinSpace ws).data = joinCh (ws.map String.data)
  | [] => rfl
  | [w] => rfl
  | w :: v :: ws => by
    show (w ++ " " ++ joinSpace (v :: ws)).data = w.data ++ ' ' :: joinCh ((v :: ws).map String.data)
    rw [String.data_append, String.data_append, joinSpace_data (v :: ws)]
    simp

theorem splitWsAux_nonWs (w : List Char) (hw : ∀ c ∈ w, isWs c = false) :
    ∀ (rest acc : List Char), splitWsAux (w ++ rest) acc = splitWsAux rest (w.reverse ++ acc) := by
  induction w with
  | nil => intro rest acc; simp
  | cons c cs ih =>
    intro rest acc
    have hc : isWs c = false := hw c (List.mem_cons_self c cs)
    have hcs : ∀ x ∈ cs, isWs x = false := fun x hx => hw x (List.mem_cons_of_mem c hx)
    simp only [List.cons_append, splitWsAux, hc, Bool.false_eq_true, if_false, List.append_eq]
    rw [ih hcs rest (c :: acc)]
    simp

/-- Round-trip: splitting the space-join of well-formed words gives the words back. -/
theorem splitWsAux_joinCh : ∀ ws : List (List Char), (∀ w ∈ ws, WordOk w) →
    splitWsAux (joinCh ws) [] = ws := by
  intro ws
  induction ws with
  | nil => intro _; rfl
  | cons w ws ih =>
    intro hok
    have hw : WordOk w := hok w (List.mem_cons_self w ws)
    have hws : ∀ v ∈ ws, WordOk v := fun v hv => hok v (List.mem_cons_of_mem w hv)
    cases ws with
    | nil =>
      have h1 : splitWsAux (joinCh [w]) [] = splitWsAux [] (w.reverse ++ []) := by
        have h2 := splitWsAux_nonWs w hw.2 [] []
        simpa using h2
      rw [h1]
      simp only [splitWsAux, List.append_nil]
      have : ¬ (w.reverse = []) := by
        intro h
        exact hw.1 (by simpa using congrArg List.reverse h)
      rw [if_neg this]
      simp
    | cons v vs =>
      show splitWsAux (w ++ ' ' :: joinCh (v :: vs)) [] = w :: v :: vs
      rw [splitWsAux_nonWs w hw.2 (' ' :: joinCh (v :: vs)) []]
      have hsp : isWs ' ' = true := rfl
      simp only [splitWsAux, hsp, if_true, List.append_nil]
      have : ¬ (w.reverse = []) := by
        intro h
        exact hw.1 (by simpa using congrArg List.reverse h)
      rw [if_neg this]
      rw [ih hws]
      simp

/-- Every word returned by `splitWsAux` is non-empty and whitespace-free. -/
theorem splitWsAux_wordOk : ∀ (s acc : List Char), (∀ c ∈ acc, isWs c = false) →
    ∀ w ∈ splitWsAux s acc, WordOk w := by
  intro s
  induction s with
  | nil =>
    intro acc hacc w hw
    simp only [splitWsAux] at hw
    by_cases h : acc = []
    · rw [if_pos h] at hw; exact absurd hw (List.not_mem_nil w)
    · rw [if_neg h] at hw
      simp only [List.mem_singleton] at hw
      subst hw
      constructor
      · intro hrev
        exact h (by simpa using congrArg List.reverse hrev)
      · intro c hc
        exact hacc c (by simpa using hc)
  | cons c cs ih =>
    intro acc hacc w hw
    simp only [splitWsAux] at hw
    by_cases hc : isWs c
    · rw [if_pos hc] at hw
      by_cases h : acc = []
      · rw [if_pos h] at hw
        exact ih [] (by intro x hx; exact absurd hx (List.not_mem_nil x)) w hw
      · rw [if_neg h] at hw
        rcases List.mem_cons.1 hw with hw1 | hw2
        · subst hw1
          constructor
          · intro hrev
            exact h (by simpa using congrArg List.reverse hrev)
          · intro x hx
            exact hacc x (by simpa using hx)
        · exact ih [] (by intro x hx; exact absurd hx (List.not_mem_nil x)) w hw2
    · rw [if_neg hc] at hw
      refine ih (c :: acc) ?_ w hw
      intro x hx
      rcases List.mem_cons.1 hx with hx1 | hx2
      · subst hx1; exact Bool.not_eq_true _ ▸ (by simpa using hc)
      · exact hacc x hx2

theorem pySplit_wordOk (s : String) : ∀ w ∈ pySplit s, WordOk w.data := by
  intro w hw
  simp only [pySplit, List.mem_map] at hw
  obtain ⟨cs, hcs, rfl⟩ := hw
  exact splitWsAux_wordOk s.data [] (by intro x hx; exact absurd hx (List.not_mem_nil x)) cs hcs

/-- Round-trip at the `String` level: `" ".join(ws).split() == ws` for well-formed words. -/
theorem pySplit_joinSpace (ws : List String) (hok : ∀ w ∈ ws, WordOk w.data) :
    pySplit (joinSpace ws) = ws := by
  unfold pySplit
  rw [joinSpace_data, splitWsAux_joinCh (ws.map String.data)
    (by intro w hw; simp only [List.mem_map] at hw; obtain ⟨v, hv, rfl⟩ := hw; exact hok v hv)]
  have hid : (fun cs => String.mk cs) ∘ String.data = fun w => w := funext fun w => rfl
  rw [List.map_map, hid, List.map_id']

theorem pyBound_natCast (n i : Nat) : pyBound n (i : Int) = min i n := by
  unfold pyBound
  rw [if_neg (by exact_mod_cast Int.not_lt.2 (Int.ofNat_nonneg i))]
  simp

/-- For non-negative bounds, the Python slice `xs[i : i + c]` is drop-then-take. -/
theorem pySlice_nat {α : Type} (xs : List α) (i c : Nat) :
    pySlice xs (i : Int) ((i : Int) + (c : Int)) = (xs.drop i).take c := by
  unfold pySlice
  have hb : ((i : Int) + (c : Int)) = ((i + c : Nat) : Int) := by push_cast; ring
  rw [hb, pyBound_natCast, pyBound_natCast]
  have htake : xs.take (min (i + c) xs.length) = xs.take (i + c) := by simp
  rcases Nat.le_total i xs.length with h | h
  · rw [Nat.min_eq_left h, htake, List.drop_take]
    simp
  · rw [Nat.min_eq_right h, htake, List.take_of_length_le (le_trans h (Nat.le_add_right i c)),
      List.drop_of_length_le le_rfl, List.drop_of_length_le h, List.take_nil]

example : chunk_text "a b c d e" 2 1 6 =
    some ["a b", "b c", "c d", "d e", "e"] := by decide

example : chunk_text "a b c d e" 3 0 6 = some ["a b c", "d e"] := by decide

theorem step_cast (i cs ov : Nat) (h : ov ≤ cs) :
    (i : Int) + ((cs : Int) - (ov : Int)) = ((i + (cs - ov) : Nat) : Int) := by
  rw [Nat.cast_add, Nat.cast_sub h]

/-- With `overlap < chunk_size` the loop exits once the fuel exceeds the remaining words. -/
theorem chunkLoopFuel_terminates (words : List String) (cs ov : Nat) (h : ov < cs) :
    ∀ (fuel i : Nat), words.length - i < fuel →
      ∃ chunks, chunkLoopFuel words (cs : Int) (ov : Int) fuel (i : Int) = some chunks := by
  intro fuel
  induction fuel with
  | zero => intro i hi; omega
  | succ n ih =>
    intro i hi
    by_cases hlt : (i : Int) < (words.length : Int)
    · have hlt' : i < words.length := by exact_mod_cast hlt
      obtain ⟨chunks, hch⟩ := ih (i + (cs - ov)) (by omega)
      refine ⟨joinSpace (pySlice words (i : Int) ((i : Int) + (cs : Int))) :: chunks, ?_⟩
      simp only [chunkLoopFuel]
      rw [if_pos hlt, step_cast i cs ov h.le, hch]
      rfl
    · refine ⟨[], ?_⟩
      simp only [chunkLoopFuel]
      rw [if_neg hlt]

/-- Chunk `k` of a successful run from position `i` is the window starting
`k * (chunk_size - overlap)` words further on. -/
theorem chunkLoopFuel_get (words : List String) (cs ov : Nat) (h : ov < cs) :
    ∀ (fuel i : Nat) (chunks : List String),
      chunkLoopFuel words (cs : Int) (ov : Int) fuel (i : Int) = some chunks →
      ∀ k : Nat, chunks.get? k =
        if i + k * (cs - ov) < words.length then
          some (joinSpace ((words.drop (i + k * (cs - ov))).take cs))
        else none := by
  intro fuel
  induction fuel with
  | zero => intro i chunks hc; simp [chunkLoopFuel] at hc
  | succ n ih =>
    intro i chunks hc k
    simp only [chunkLoopFuel] at hc
    by_cases hlt : (i : Int) < (words.length : Int)
    · rw [if_pos hlt, step_cast i cs ov h.le] at hc
      rw [Option.map_eq_some'] at hc
      obtain ⟨rest, hrec, hcons⟩ := hc
      subst hcons
      have hlt' : i < words.length := by exact_mod_cast hlt
      cases k with
      | zero =>
        rw [List.get?_cons_zero, if_pos (by simpa using hlt')]
        rw [pySlice_nat]
        simp
      | succ k' =>
        rw [List.get?_cons_succ]
        have hk := ih (i + (cs - ov)) rest hrec k'
        have harith : i + (cs - ov) + k' * (cs - ov) = i + (k' + 1) * (cs - ov) := by ring
        rw [harith] at hk
        exact hk
    · rw [if_neg hlt] at hc
      have hchunks : chunks = [] := by
        simpa using hc.symm
      subst hchunks
      have hlen : words.length ≤ i := by
        have := Int.not_lt.1 hlt
        exact_mod_cast this
      rw [if_neg (Nat.not_lt.2 (le_trans hlen (Nat.le_add_right i _)))]
      simp

/-- Dropping `overlap` words from every chunk of a successful run from position
`i` and concatenating yields the word suffix from position `i + overlap`. -/
theorem chunkLoopFuel_rejoin (words : List String) (cs ov : Nat) (h : ov < cs)
    (hwords : ∀ w ∈ words, WordOk w.data) :
    ∀ (fuel i : Nat) (chunks : List String),
      chunkLoopFuel words (cs : Int) (ov : Int) fuel (i : Int) = some chunks →
      (chunks.map (fun c => (pySplit c).drop ov)).flatten = words.drop (i + ov) := by
  intro fuel
  induction fuel with
  | zero => intro i chunks hc; simp [chunkLoopFuel] at hc
  | succ n ih =>
    intro i chunks hc
    simp only [chunkLoopFuel] at hc
    by_cases hlt : (i : Int) < (words.length : Int)
    · rw [if_pos hlt, step_cast i cs ov h.le] at hc
      rw [Option.map_eq_some'] at hc
      obtain ⟨rest, hrec, hcons⟩ := hc
      subst hcons
      have hsl : pySlice words (i : Int) ((i : Int) + (cs : Int)) = (words.drop i).take cs := by
        exact pySlice_nat words i cs
      have hok : ∀ w ∈ (words.drop i).take cs, WordOk w.data := fun w hw =>
        hwords w (List.mem_of_mem_drop (List.mem_of_mem_take hw))
      have hhead : pySplit (joinSpace ((words.drop i).take cs)) = (words.drop i).take cs :=
        pySplit_joinSpace _ hok
      have htail := ih (i + (cs - ov)) rest hrec
      simp only [List.map_cons, List.flatten_cons, hsl, hhead]
      rw [htail]
      have h1 : ((words.drop i).take cs).drop ov = ((words.drop i).drop ov).take (cs - ov) :=
        List.drop_take cs ov (words.drop i)
      rw [h1, List.drop_drop]
      have h2 : words.drop (i + (cs - ov) + ov) = (words.drop (i + ov)).drop (cs - ov) := by
        rw [List.drop_drop, show i + ov + (cs - ov) = i + (cs - ov) + ov from by omega]
      rw [h2, List.take_append_drop]
    · rw [if_neg hlt] at hc
      have hchunks : chunks = [] := by
        simpa using hc.symm
      subst hchunks
      have hlen : words.length ≤ i := by
        have := Int.not_lt.1 hlt
        exact_mod_cast this
      rw [List.drop_of_length_le (le_trans hlen (Nat.le_add_right i ov))]
      simp

/-- C1: the claim says the chunker guards against `overlap ≥ chunk_size` and fails with a
configuration error, so that `chunk_text` terminates on every input.  The code has no such
guard: with `chunk_size = 1`, `overlap = 1` and the two-word text `"a b"`, the window never
advances and the `while` loop never exits — for every fuel the loop is still running. -/
theorem chunk_text_no_guard_diverges :
    ∀ fuel : Nat, chunk_text "a b" 1 1 fuel = none := by
  have hws : pySplit "a b" = ["a", "b"] := by decide
  intro fuel
  show chunkLoopFuel (pySplit "a b") 1 1 fuel 0 = none
  rw [hws]
  induction fuel with
  | zero => rfl
  | succ n ih =>
    simp only [chunkLoopFuel]
    rw [if_pos (by decide : (0 : Int) < ((["a", "b"] : List String).length : Int))]
    rw [show (0 : Int) + (1 - 1) = 0 from by norm_num, ih]
    rfl

/-- C2: for `0 ≤ overlap < chunk_size`, `chunk_text` terminates and returns the list of
windows in which chunk `k` starts `k * (chunk_size - overlap)` words into the text, and
keeping the first chunk whole while dropping the first `overlap` words of every later
chunk reconstructs `text.split()` exactly, in order. -/
theorem chunk_text_windows_and_reconstruction (text : String) (chunk_size overlap : Nat)
    (h : overlap < chunk_size) :
    ∃ chunks : List String,
      chunk_text text (chunk_size : Int) (overlap : Int) ((pySplit text).length + 1) =
        some chunks ∧
      (∀ k : Nat, chunks.get? k =
        if k * (chunk_size - overlap) < (pySplit text).length then
          some (joinSpace (((pySplit text).drop (k * (chunk_size - overlap))).take chunk_size))
        else none) ∧
      ((chunks.take 1).map pySplit).flatten ++
          ((chunks.drop 1).map (fun c => (pySplit c).drop overlap)).flatten =
        pySplit text := by
  obtain ⟨chunks, hch⟩ := chunkLoopFuel_terminates (pySplit text) chunk_size overlap h
    ((pySplit text).length + 1) 0 (by omega)
  rw [show ((0 : Nat) : Int) = (0 : Int) from by norm_num] at hch
  have hget := fun k => by
    have hg := chunkLoopFuel_get (pySplit text) chunk_size overlap h
      ((pySplit text).length + 1) 0 chunks (by rw [Nat.cast_zero]; exact hch) k
    rwa [Nat.zero_add] at hg
  refine ⟨chunks, hch, hget, ?_⟩
  cases hcq : chunks with
  | nil =>
    have h0 := hget 0
    rw [hcq] at h0
    by_cases hlen : 0 * (chunk_size - overlap) < (pySplit text).length
    · rw [if_pos hlen] at h0
      exact absurd h0 (by simp)
    · have : (pySplit text).length = 0 := by omega
      rw [List.length_eq_zero] at this
      rw [this]
      simp
  | cons c0 rest =>
    have hlen : 0 < (pySplit text).length := by
      by_contra hn
      have h0 := hget 0
      rw [hcq, List.get?_cons_zero, if_neg (by omega)] at h0
      exact absurd h0 (by simp)
    rw [hcq] at hch
    simp only [chunk_text, chunkLoopFuel] at hch
    rw [if_pos (by exact_mod_cast hlen)] at hch
    rw [show (0 : Int) + ((chunk_size : Int) - (overlap : Int)) =
        (((chunk_size - overlap : Nat)) : Int) from by rw [Nat.cast_sub h.le]; ring] at hch
    rw [Option.map_eq_some'] at hch
    obtain ⟨rest2, hrec, hcons⟩ := hch
    have hc0 : joinSpace (pySlice (pySplit text) (0 : Int) ((0 : Int) + (chunk_size : Int))) = c0 :=
      congrArg (fun l => l.headI) hcons
    have hrest : rest2 = rest := by
      have := congrArg List.tail hcons
      simpa using this
    rw [hrest] at hrec
    have hsl : pySlice (pySplit text) (0 : Int) ((0 : Int) + (chunk_size : Int)) =
        (pySplit text).take chunk_size := by
      have hp := pySlice_nat (pySplit text) 0 chunk_size
      rw [Nat.cast_zero] at hp
      rw [hp, List.drop_zero]
    rw [hsl] at hc0
    have hokw : ∀ w ∈ (pySplit text).take chunk_size, WordOk w.data := fun w hw =>
      pySplit_wordOk text w (List.mem_of_mem_take hw)
    have hhead : pySplit c0 = (pySplit text).take chunk_size := by
      rw [← hc0]
      exact pySplit_joinSpace _ hokw
    have htail := chunkLoopFuel_rejoin (pySplit text) chunk_size overlap h
      (pySplit_wordOk text) ((pySplit text).length) (chunk_size - overlap) rest hrec
    rw [show chunk_size - overlap + overlap = chunk_size from by omega] at htail
    simp only [List.take_succ_cons, List.take_zero, List.drop_succ_cons, List.drop_zero,
      List.map_cons, List.map_nil, List.flatten_cons, List.flatten_nil, List.append_nil]
    rw [hhead, htail, List.take_append_drop]

/-- Witness for C2 at a concrete input. -/
theorem chunk_text_windows_and_reconstruction_witness :
    ∃ chunks : List String,
      chunk_text "a b c" ((2 : Nat) : Int) ((1 : Nat) : Int) ((pySplit "a b c").length + 1) =
        some chunks ∧
      (∀ k : Nat, chunks.get? k =
        if k * (2 - 1) < (pySplit "a b c").length then
          some (joinSpace (((pySplit "a b c").drop (k * (2 - 1))).take 2))
        else none) ∧
      ((chunks.take 1).map pySplit).flatten ++
          ((chunks.drop 1).map (fun c => (pySplit c).drop 1)).flatten =
        pySplit "a b c" :=
  chunk_text_windows_and_reconstruction "a b c" 2 1 (by decide)

theorem collectStep_foldl (recs : List DocRecord) :
    ∀ acc : List String × List MetadataEntry,
      recs.foldl collectStep acc =
        (acc.1 ++ (recs.map DocRecord.chunks).flatten,
         acc.2 ++ (recs.map (fun r => (List.range r.chunks.length).map (mkMetadata r))).flatten) := by
  induction recs with
  | nil => intro acc; simp
  | cons r rs ih =>
    intro acc
    rw [List.foldl_cons, ih]
    simp [collectStep]

/-- Paired indexing into the two parallel flattened lists built by `collect_docs`. -/
theorem collect_join_get (recs : List DocRecord) :
    ∀ j : Nat, j < (recs.map DocRecord.chunks).flatten.length →
      ∃ r ∈ recs, ∃ i : Nat,
        ((recs.map (fun r => (List.range r.chunks.length).map (mkMetadata r))).flatten.get? j =
          some (mkMetadata r i)) ∧
        (recs.map DocRecord.chunks).flatten.get? j = r.chunks.get? i := by
  induction recs with
  | nil => intro j hj; simp at hj
  | cons r rs ih =>
    intro j hj
    simp only [List.map_cons, List.flatten_cons] at hj ⊢
    by_cases hjr : j < r.chunks.length
    · refine ⟨r, List.mem_cons_self r rs, j, ?_, ?_⟩
      · rw [List.get?_append (by simpa using hjr), List.get?_map,
          List.get?_range hjr]
        rfl
      · rw [List.get?_append hjr]
    · have hlen : ((List.range r.chunks.length).map (mkMetadata r)).length = r.chunks.length := by
        simp
      rw [List.get?_append_right (by omega), List.get?_append_right (by omega), hlen]
      have hj' : j - r.chunks.length < (rs.map DocRecord.chunks).flatten.length := by
        rw [List.length_append] at hj
        omega
      obtain ⟨r', hr', i, hm, hd⟩ := ih (j - r.chunks.length) hj'
      exact ⟨r', List.mem_cons_of_mem r hr', i, hm, hd⟩

/-- C3: for a non-empty corpus, `collect_docs` returns parallel lists of equal
length, in corpus order (records in path order, chunks in order inside each
record), and the metadata at position `j` describes exactly the chunk at
position `j`: it is the dictionary built for chunk `i` of its parent record,
whose `chunk_index` field is that very `i`; building the index over these two
lists stores one vector per chunk (position count `N`) beside that metadata
list, so vector position and metadata position stay aligned. -/
theorem collect_docs_parallel (recs : List DocRecord) (h : recs ≠ []) :
    ∃ docs metadatas,
      collect_docs recs = Except.ok (docs, metadatas) ∧
      docs.length = metadatas.length ∧
      docs = (recs.map DocRecord.chunks).flatten ∧
      metadatas = (recs.map (fun r => (List.range r.chunks.length).map (mkMetadata r))).flatten ∧
      (∀ j : Nat, j < docs.length →
        ∃ r ∈ recs, ∃ i : Nat,
          metadatas.get? j = some (mkMetadata r i) ∧
          docs.get? j = r.chunks.get? i ∧
          (mkMetadata r i).chunk_index = some (i : Int)) ∧
      ∀ encode : String → List ℚ,
        (build_faiss_index encode docs metadatas).vectors.length = metadatas.length ∧
        (build_faiss_index encode docs metadatas).metadatas = metadatas := by
  have hlen : ((recs.map DocRecord.chunks).flatten).length =
      ((recs.map (fun r => (List.range r.chunks.length).map (mkMetadata r))).flatten).length := by
    rw [List.length_flatten, List.length_flatten]
    congr 1
    rw [List.map_map, List.map_map]
    refine List.map_congr_left ?_
    intro r _
    simp
  refine ⟨((recs.map DocRecord.chunks).flatten),
    ((recs.map (fun r => (List.range r.chunks.length).map (mkMetadata r))).flatten),
    ?_, hlen, rfl, rfl, ?_, ?_⟩
  · unfold collect_docs
    rw [if_neg h, collectStep_foldl recs ([], [])]
    simp
  · intro j hj
    obtain ⟨r, hr, i, hm, hd⟩ := collect_join_get recs j hj
    exact ⟨r, hr, i, hm, hd, rfl⟩
  · intro encode
    refine ⟨?_, rfl⟩
    simp only [build_faiss_index, List.length_map]
    exact hlen

/-- Witness for C3 at a concrete one-record corpus. -/
theorem collect_docs_parallel_witness :
    ∃ docs metadatas,
      collect_docs [⟨some "d", some "t", some "u", some "s", some "p", ["c0", "c1"]⟩] =
        Except.ok (docs, metadatas) ∧
      docs.length = metadatas.length ∧
      docs = (([⟨some "d", some "t", some "u", some "s", some "p", ["c0", "c1"]⟩] :
          List DocRecord).map DocRecord.chunks).flatten ∧
      metadatas = (([⟨some "d", some "t", some "u", some "s", some "p", ["c0", "c1"]⟩] :
          List DocRecord).map
            (fun r => (List.range r.chunks.length).map (mkMetadata r))).flatten ∧
      (∀ j : Nat, j < docs.length →
        ∃ r ∈ ([⟨some "d", some "t", some "u", some "s", some "p", ["c0", "c1"]⟩] :
            List DocRecord), ∃ i : Nat,
          metadatas.get? j = some (mkMetadata r i) ∧
          docs.get? j = r.chunks.get? i ∧
          (mkMetadata r i).chunk_index = some (i : Int)) ∧
      ∀ encode : String → List ℚ,
        (build_faiss_index encode docs metadatas).vectors.length = metadatas.length ∧
        (build_faiss_index encode docs metadatas).metadatas = metadatas :=
  collect_docs_parallel [⟨some "d", some "t", some "u", some "s", some "p", ["c0", "c1"]⟩]
    (by decide)

theorem pyGetMeta_nat (ms : List MetadataEntry) (i : Nat) (h : i < ms.length) :
    ∃ m, pyGetMeta ms (i : Int) = Except.ok m ∧ ms.get? i = some m := by
  have hm : ms.get? i = some (ms.get ⟨i, h⟩) := List.get?_eq_get h
  refine ⟨ms.get ⟨i, h⟩, ?_, hm⟩
  have hidx : pyIndex ms.length (i : Int) = (i : Int) := by
    unfold pyIndex
    rw [if_neg (by exact_mod_cast Int.not_lt.2 (Int.ofNat_nonneg i))]
  unfold pyGetMeta
  rw [hidx, if_pos (Int.ofNat_nonneg i), Int.toNat_ofNat, hm]

theorem pyGetMeta_negOne (ms : List MetadataEntry) (h : 1 ≤ ms.length) :
    ∃ m, pyGetMeta ms (-1) = Except.ok m ∧ ms.get? (ms.length - 1) = some m := by
  have hlt : ms.length - 1 < ms.length := by omega
  have hm : ms.get? (ms.length - 1) = some (ms.get ⟨ms.length - 1, hlt⟩) := List.get?_eq_get hlt
  refine ⟨ms.get ⟨ms.length - 1, hlt⟩, ?_, hm⟩
  have hidx : pyIndex ms.length (-1) = (ms.length : Int) - 1 := by
    unfold pyIndex
    rw [if_pos (by norm_num)]
    ring
  have htn : ((ms.length : Int) - 1).toNat = ms.length - 1 := by omega
  unfold pyGetMeta
  rw [hidx, if_pos (by omega), htn, hm]

theorem buildResults_ok (ms : List MetadataEntry) (D : List ℚ) :
    ∀ (I : List Int), (∀ v ∈ I, ∃ m, pyGetMeta ms v = Except.ok m) →
      ∀ r0 : Nat, ∃ rs, buildResults ms D I r0 = Except.ok rs := by
  intro I
  induction I with
  | nil => intro _ r0; exact ⟨[], rfl⟩
  | cons v I ih =>
    intro hv r0
    obtain ⟨m, hm⟩ := hv v (List.mem_cons_self v I)
    obtain ⟨rs, hrs⟩ := ih (fun w hw => hv w (List.mem_cons_of_mem v hw)) (r0 + 1)
    refine ⟨{ rank := r0 + 1, score := D.getD r0 0, metadata := m } :: rs, ?_⟩
    simp only [buildResults, hm, hrs]

theorem buildResults_length (ms : List MetadataEntry) (D : List ℚ) :
    ∀ (I : List Int) (r0 : Nat) (rs : List SearchResult),
      buildResults ms D I r0 = Except.ok rs → rs.length = I.length := by
  intro I
  induction I with
  | nil =>
    intro r0 rs h
    simp only [buildResults] at h
    cases h
    rfl
  | cons v I ih =>
    intro r0 rs h
    simp only [buildResults] at h
    cases hm : pyGetMeta ms v with
    | error e => rw [hm] at h; exact absurd h (by simp)
    | ok m =>
      rw [hm] at h
      cases hr : buildResults ms D I (r0 + 1) with
      | error e => rw [hr] at h; exact absurd h (by simp)
      | ok rs' =>
        rw [hr] at h
        cases h
        simp [ih (r0 + 1) rs' hr]

theorem buildResults_ranks (ms : List MetadataEntry) (D : List ℚ) :
    ∀ (I : List Int) (r0 : Nat) (rs : List SearchResult),
      buildResults ms D I r0 = Except.ok rs →
      rs.map SearchResult.rank = List.range' (r0 + 1) I.length := by
  intro I
  induction I with
  | nil =>
    intro r0 rs h
    simp only [buildResults] at h
    cases h
    rfl
  | cons v I ih =>
    intro r0 rs h
    simp only [buildResults] at h
    cases hm : pyGetMeta ms v with
    | error e => rw [hm] at h; exact absurd h (by simp)
    | ok m =>
      rw [hm] at h
      cases hr : buildResults ms D I (r0 + 1) with
      | error e => rw [hr] at h; exact absurd h (by simp)
      | ok rs' =>
        rw [hr] at h
        cases h
        simp only [List.map_cons, ih (r0 + 1) rs' hr, List.length_cons, List.range'_succ]

theorem buildResults_score_get (ms : List MetadataEntry) (D : List ℚ) :
    ∀ (I : List Int) (r0 : Nat) (rs : List SearchResult),
      buildResults ms D I r0 = Except.ok rs →
      ∀ j : Nat, j < I.length →
        (rs.get? j).map SearchResult.score = some (D.getD (r0 + j) 0) := by
  intro I
  induction I with
  | nil => intro r0 rs h j hj; simp at hj
  | cons v I ih =>
    intro r0 rs h j hj
    simp only [buildResults] at h
    cases hm : pyGetMeta ms v with
    | error e => rw [hm] at h; exact absurd h (by simp)
    | ok m =>
      rw [hm] at h
      cases hr : buildResults ms D I (r0 + 1) with
      | error e => rw [hr] at h; exact absurd h (by simp)
      | ok rs' =>
        rw [hr] at h
        cases h
        cases j with
        | zero => simp
        | succ j' =>
          have := ih (r0 + 1) rs' hr j' (by simpa using hj)
          rw [List.get?_cons_succ]
          rw [show r0 + (j' + 1) = r0 + 1 + j' from by omega]
          exact this

theorem buildResults_metadata_get (ms : List MetadataEntry) (D : List ℚ) :
    ∀ (I : List Int) (r0 : Nat) (rs : List SearchResult),
      buildResults ms D I r0 = Except.ok rs →
      ∀ (j : Nat) (v : Int), I.get? j = some v →
        ∃ m, pyGetMeta ms v = Except.ok m ∧
          (rs.get? j).map SearchResult.metadata = some m := by
  intro I
  induction I with
  | nil => intro r0 rs h j v hv; simp at hv
  | cons w I ih =>
    intro r0 rs h j v hv
    simp only [buildResults] at h
    cases hm : pyGetMeta ms w with
    | error e => rw [hm] at h; exact absurd h (by simp)
    | ok m =>
      rw [hm] at h
      cases hr : buildResults ms D I (r0 + 1) with
      | error e => rw [hr] at h; exact absurd h (by simp)
      | ok rs' =>
        rw [hr] at h
        cases h
        cases j with
        | zero =>
          rw [List.get?_cons_zero] at hv
          cases hv
          exact ⟨m, hm, by simp⟩
        | succ j' =>
          rw [List.get?_cons_succ] at hv
          obtain ⟨m', hm', hg⟩ := ih (r0 + 1) rs' hr j' v hv
          exact ⟨m', hm', by rw [List.get?_cons_succ]; exact hg⟩

theorem map_getD_range (l : List ℚ) :
    ∀ d : ℚ, (List.range l.length).map (fun t => l.getD t d) = l := by
  induction l with
  | nil => intro d; rfl
  | cons a l ih =>
    intro d
    rw [List.length_cons, List.range_succ_eq_map, List.map_cons, List.map_map]
    simp only [List.getD_cons_zero]
    congr 1
    have : ((fun t => (a :: l).getD t d) ∘ Nat.succ) = fun t => l.getD t d := by
      funext t
      simp
    rw [this, ih d]

theorem buildResults_scores (ms : List MetadataEntry) (D : List ℚ)
    (I : List Int) (rs : List SearchResult) (h : buildResults ms D I 0 = Except.ok rs)
    (hlen : D.length = I.length) :
    rs.map SearchResult.score = D := by
  have hrs := buildResults_length ms D I 0 rs h
  refine List.ext_get? ?_
  intro j
  by_cases hj : j < I.length
  · have h1 := buildResults_score_get ms D I 0 rs h j hj
    have h2 : (rs.map SearchResult.score).get? j = (rs.get? j).map SearchResult.score :=
      List.get?_map SearchResult.score rs j
    rw [h2, h1, Nat.zero_add]
    have hjD : j < D.length := by omega
    rw [List.getD_eq_get?, List.get?_eq_get hjD]
    rfl
  · rw [List.get?_eq_none.2 (by simpa [hrs] using Nat.le_of_not_lt hj),
      List.get?_eq_none.2 (by omega)]

/-- Every stored position occurring in the un-padded part of the search output
is a valid position of the stored vector list. -/
theorem faissSearch_top_mem (stored : List (List ℚ)) (q : List ℚ) (k : Nat) :
    ∀ p ∈ (List.insertionSort distLe
        (((stored.map (sqL2 q)).enum).map (fun p => (p.2, p.1)))).take k,
      p.2 < stored.length := by
  intro p hp
  have hp1 : p ∈ List.insertionSort distLe
      (((stored.map (sqL2 q)).enum).map (fun p => (p.2, p.1))) :=
    List.mem_of_mem_take hp
  have hp2 : p ∈ ((stored.map (sqL2 q)).enum).map (fun p => (p.2, p.1)) :=
    (List.perm_insertionSort distLe _).mem_iff.1 hp1
  obtain ⟨x, hx, rfl⟩ := List.mem_map.1 hp2
  have := List.fst_lt_of_mem_enum hx
  simpa using this

/-- C4: with `k ≤ N`, `query_index` succeeds with exactly `k` results whose ranks
are `1..k` in list order, whose scores are exactly the distances the search
returned — non-decreasing by rank, with no normalization applied — and whose
metadata at every position is the metadata entry stored at the index position
the search returned there. -/
theorem query_index_ranked (idx : IndexData) (encode : String → List ℚ)
    (q : String) (k N : Nat) (hv : idx.vectors.length = N)
    (hm : idx.metadatas.length = N) (hk : k ≤ N) :
    ∃ results, query_index idx encode q k = Except.ok results ∧
      results.length = k ∧
      results.map SearchResult.rank = List.range' 1 k ∧
      results.map SearchResult.score = (faissSearch idx.vectors (encode q) k).1 ∧
      List.Sorted (fun a b => a ≤ b) (results.map SearchResult.score) ∧
      ∀ j : Nat, j < k → ∃ i : Nat, i < N ∧
        (faissSearch idx.vectors (encode q) k).2.get? j = some ((i : Nat) : Int) ∧
        (results.get? j).map SearchResult.metadata = idx.metadatas.get? i := by
  have hplen : (((idx.vectors.map (sqL2 (encode q))).enum).map
      (fun p => (p.2, p.1))).length = N := by
    simp [hv]
  have hslen : (List.insertionSort distLe (((idx.vectors.map (sqL2 (encode q))).enum).map
      (fun p => (p.2, p.1)))).length = N := by
    rw [List.length_insertionSort, hplen]
  set top := (List.insertionSort distLe (((idx.vectors.map (sqL2 (encode q))).enum).map
      (fun p => (p.2, p.1)))).take k with htop
  have htoplen : top.length = k := by
    rw [htop, List.length_take, hslen]
    omega
  have hpad : k - top.length = 0 := by omega
  have hfs : faissSearch idx.vectors (encode q) k =
      (top.map Prod.fst ++ List.replicate (k - top.length) padDist,
       top.map (fun p => ((p.2 : Nat) : Int)) ++ List.replicate (k - top.length) (-1)) := by
    rw [htop]
    rfl
  have hD : (faissSearch idx.vectors (encode q) k).1 = top.map Prod.fst := by
    rw [hfs, hpad]
    simp
  have hI : (faissSearch idx.vectors (encode q) k).2 =
      top.map (fun p => ((p.2 : Nat) : Int)) := by
    rw [hfs, hpad]
    simp
  have hIlen : (faissSearch idx.vectors (encode q) k).2.length = k := by
    rw [hI, List.length_map, htoplen]
  have hvalid : ∀ v ∈ (faissSearch idx.vectors (encode q) k).2,
      ∃ m, pyGetMeta idx.metadatas v = Except.ok m := by
    intro v hvm
    rw [hI] at hvm
    obtain ⟨p, hp, rfl⟩ := List.mem_map.1 hvm
    have hlt : p.2 < N := hv ▸ faissSearch_top_mem idx.vectors (encode q) k p hp
    obtain ⟨m, hm1, _⟩ := pyGetMeta_nat idx.metadatas p.2 (by omega)
    exact ⟨m, hm1⟩
  obtain ⟨results, hres⟩ := buildResults_ok idx.metadatas
    (faissSearch idx.vectors (encode q) k).1 (faissSearch idx.vectors (encode q) k).2 hvalid 0
  have hrlen : results.length = k := by
    rw [buildResults_length _ _ _ _ _ hres, hIlen]
  have hDlen : (faissSearch idx.vectors (encode q) k).1.length = k := by
    rw [hD, List.length_map, htoplen]
  have hscores : results.map SearchResult.score = (faissSearch idx.vectors (encode q) k).1 :=
    buildResults_scores _ _ _ _ hres (by rw [hDlen, hIlen])
  refine ⟨results, hres, hrlen, ?_, hscores, ?_, ?_⟩
  · rw [buildResults_ranks _ _ _ _ _ hres, hIlen]
  · rw [hscores, hD]
    have hsorted : List.Sorted distLe (List.insertionSort distLe
        (((idx.vectors.map (sqL2 (encode q))).enum).map (fun p => (p.2, p.1)))) :=
      List.sorted_insertionSort distLe _
    have htops : List.Pairwise distLe top :=
      List.Pairwise.sublist (List.take_sublist k _) hsorted
    exact List.Pairwise.map Prod.fst (fun a b hab => hab) htops
  · intro j hj
    have hjt : j < top.length := by omega
    have hpj : top.get? j = some (top.get ⟨j, hjt⟩) := List.get?_eq_get hjt
    have hIj : (faissSearch idx.vectors (encode q) k).2.get? j =
        some (((top.get ⟨j, hjt⟩).2 : Nat) : Int) := by
      rw [hI, List.get?_map, hpj]
      rfl
    have hlt : (top.get ⟨j, hjt⟩).2 < N :=
      hv ▸ faissSearch_top_mem idx.vectors (encode q) k _ (List.get_mem top j hjt)
    obtain ⟨m, hm1, hm2⟩ := pyGetMeta_nat idx.metadatas (top.get ⟨j, hjt⟩).2 (by omega)
    obtain ⟨m', hm1', hg⟩ := buildResults_metadata_get _ _ _ _ _ hres j _ hIj
    rw [hm1] at hm1'
    cases hm1'
    exact ⟨(top.get ⟨j, hjt⟩).2, hlt, hIj, by rw [hg, hm2]⟩

theorem get?_replicate_lt {α : Type} (n i : Nat) (a : α) (h : i < n) :
    (List.replicate n a).get? i = some a := by
  rw [List.get?_eq_get (by simpa using h)]
  simp

/-- C5: with `k > N`, `query_index` does not raise: it returns `Except.ok` with the
search routine's native padding — `k` result rows of which only the first `N` are
meaningful; every row past position `N` carries the sentinel pad distance and the
metadata Python's `metadatas[-1]` lookup yields for the pad label `-1` (the last
metadata entry). -/
theorem query_index_k_exceeds_corpus (idx : IndexData) (encode : String → List ℚ)
    (q : String) (k N : Nat) (hv : idx.vectors.length = N)
    (hm : idx.metadatas.length = N) (hN : 1 ≤ N) (hk : N < k) :
    ∃ results, query_index idx encode q k = Except.ok results ∧
      results.length = k ∧
      ∀ j : Nat, N ≤ j → j < k →
        (results.get? j).map SearchResult.score = some padDist ∧
        (results.get? j).map SearchResult.metadata = idx.metadatas.get? (N - 1) := by
  have hslen : (List.insertionSort distLe (((idx.vectors.map (sqL2 (encode q))).enum).map
      (fun p => (p.2, p.1)))).length = N := by
    rw [List.length_insertionSort]
    simp [hv]
  set top := (List.insertionSort distLe (((idx.vectors.map (sqL2 (encode q))).enum).map
      (fun p => (p.2, p.1)))).take k with htop
  have htoplen : top.length = N := by
    rw [htop, List.length_take, hslen]
    omega
  have hfs : faissSearch idx.vectors (encode q) k =
      (top.map Prod.fst ++ List.replicate (k - top.length) padDist,
       top.map (fun p => ((p.2 : Nat) : Int)) ++ List.replicate (k - top.length) (-1)) := by
    rw [htop]
    rfl
  have hIlen : (faissSearch idx.vectors (encode q) k).2.length = k := by
    rw [hfs]
    simp only [List.length_append, List.length_map, List.length_replicate, htoplen]
    omega
  have hDlen : (faissSearch idx.vectors (encode q) k).1.length = k := by
    rw [hfs]
    simp only [List.length_append, List.length_map, List.length_replicate, htoplen]
    omega
  have hvalid : ∀ v ∈ (faissSearch idx.vectors (encode q) k).2,
      ∃ m, pyGetMeta idx.metadatas v = Except.ok m := by
    intro v hvm
    rw [hfs] at hvm
    rcases List.mem_append.1 hvm with hvm | hvm
    · obtain ⟨p, hp, rfl⟩ := List.mem_map.1 hvm
      have hlt : p.2 < N := hv ▸ faissSearch_top_mem idx.vectors (encode q) k p hp
      obtain ⟨m, hm1, _⟩ := pyGetMeta_nat idx.metadatas p.2 (by omega)
      exact ⟨m, hm1⟩
    · have hv1 : v = -1 := List.eq_of_mem_replicate hvm
      subst hv1
      obtain ⟨m, hm1, _⟩ := pyGetMeta_negOne idx.metadatas (by omega)
      exact ⟨m, hm1⟩
  obtain ⟨results, hres⟩ := buildResults_ok idx.metadatas
    (faissSearch idx.vectors (encode q) k).1 (faissSearch idx.vectors (encode q) k).2 hvalid 0
  have hrlen : results.length = k := by
    rw [buildResults_length _ _ _ _ _ hres, hIlen]
  refine ⟨results, hres, hrlen, ?_⟩
  intro j hjN hjk
  have hIj : (faissSearch idx.vectors (encode q) k).2.get? j = some (-1) := by
    rw [hfs]
    rw [List.get?_append_right (by simpa [htoplen] using hjN)]
    simp only [List.length_map, htoplen]
    exact get?_replicate_lt _ _ _ (by omega)
  have hDj : (faissSearch idx.vectors (encode q) k).1.get? j = some padDist := by
    rw [hfs]
    rw [List.get?_append_right (by simpa [htoplen] using hjN)]
    simp only [List.length_map, htoplen]
    exact get?_replicate_lt _ _ _ (by omega)
  constructor
  · have hs := buildResults_score_get _ _ _ _ _ hres j (by omega)
    rw [Nat.zero_add] at hs
    rw [hs, List.getD_eq_get?, hDj]
    rfl
  · obtain ⟨m, hm1, hg⟩ := buildResults_metadata_get _ _ _ _ _ hres j (-1) hIj
    obtain ⟨m', hm1', hm2'⟩ := pyGetMeta_negOne idx.metadatas (by omega)
    rw [hm1] at hm1'
    cases hm1'
    rw [hm] at hm2'
    rw [hg, hm2']

/-- Witness for C4 at a concrete two-chunk index with `k = 1`. -/
theorem query_index_ranked_witness :
    ∃ results, query_index demoIndex demoEncode "query" 1 = Except.ok results ∧
      results.length = 1 ∧
      results.map SearchResult.rank = List.range' 1 1 ∧
      results.map SearchResult.score = (faissSearch demoIndex.vectors (demoEncode "query") 1).1 ∧
      List.Sorted (fun a b => a ≤ b) (results.map SearchResult.score) ∧
      ∀ j : Nat, j < 1 → ∃ i : Nat, i < 2 ∧
        (faissSearch demoIndex.vectors (demoEncode "query") 1).2.get? j =
          some ((i : Nat) : Int) ∧
        (results.get? j).map SearchResult.metadata = demoIndex.metadatas.get? i :=
  query_index_ranked demoIndex demoEncode "query" 1 2 rfl rfl (by omega)

/-- Witness for C5 at a concrete two-chunk index with `k = 3`. -/
theorem query_index_k_exceeds_corpus_witness :
    ∃ results, query_index demoIndex demoEncode "query" 3 = Except.ok results ∧
      results.length = 3 ∧
      ∀ j : Nat, 2 ≤ j → j < 3 →
        (results.get? j).map SearchResult.score = some padDist ∧
        (results.get? j).map SearchResult.metadata = demoIndex.metadatas.get? (2 - 1) :=
  query_index_k_exceeds_corpus demoIndex demoEncode "query" 3 2 rfl rfl (by omega) (by omega)

/-- The enrichment step changes only the `chunk_text` field, always sets it, and
sets it to the looked-up text or the placeholder when no `chunk_text` was present. -/
theorem enrichMeta_fields (m : List (Option String × DocRecord)) (md : MetadataEntry) :
    (enrichMeta m md).doc_id = md.doc_id ∧
    (enrichMeta m md).title = md.title ∧
    (enrichMeta m md).url = md.url ∧
    (enrichMeta m md).source = md.source ∧
    (enrichMeta m md).publishedAt = md.publishedAt ∧
    (enrichMeta m md).chunk_index = md.chunk_index ∧
    (enrichMeta m md).snippet = md.snippet ∧
    ((enrichMeta m md).chunk_text).isSome = true ∧
    (md.chunk_text = none →
      (enrichMeta m md).chunk_text = some
        (match chunkLookup m md with
         | some t => if t = "" then placeholderText else t
         | none => placeholderText)) := by
  unfold enrichMeta
  cases hcl : chunkLookup m md with
  | none =>
    dsimp only
    refine ⟨rfl, rfl, rfl, rfl, rfl, rfl, rfl, rfl, ?_⟩
    intro hct
    simp [orFalsy, hct]
  | some t =>
    dsimp only
    by_cases ht : t = ""
    · rw [if_pos ht]
      refine ⟨rfl, rfl, rfl, rfl, rfl, rfl, rfl, rfl, ?_⟩
      intro hct
      subst ht
      simp [orFalsy, hct]
    · rw [if_neg ht]
      refine ⟨rfl, rfl, rfl, rfl, rfl, rfl, rfl, rfl, ?_⟩
      intro hct
      simp [ht]

/-- C7: when the (article identifier, chunk position) lookup fails for a retrieved
result — record absent from the readable on-disk corpus, or chunk position missing
or out of range — evidence assembly does not raise: the enrichment substitutes the
placeholder string as that result's chunk text at its position in the output list,
and the evidence block renders exactly the placeholder as that result's passage
text. -/
theorem evidence_placeholder_on_failed_lookup (files : List DocRecord)
    (item : SearchResult) (hct : item.metadata.chunk_text = none)
    (hfail : chunkLookup (buildDataMap files) item.metadata = none) :
    (enrichMeta (buildDataMap files) item.metadata).chunk_text = some placeholderText ∧
    wrapFill 500 (passageText (enrichMeta (buildDataMap files) item.metadata)) =
      placeholderText ∧
    ∀ (results : List SearchResult) (j : Nat), results.get? j = some item →
      (prepare_retrieved_with_texts files results).get? j =
        some { rank := item.rank, score := item.score,
               metadata := enrichMeta (buildDataMap files) item.metadata } := by
  have h1 : (enrichMeta (buildDataMap files) item.metadata).chunk_text =
      some placeholderText := by
    unfold enrichMeta
    rw [hfail]
    simp [orFalsy, hct]
  refine ⟨h1, ?_, ?_⟩
  · have hpt : passageText (enrichMeta (buildDataMap files) item.metadata) =
        placeholderText := by
      unfold passageText
      rw [h1]
      simp [orFalsy, placeholderText]
    rw [hpt]
    rfl
  · intro results j hj
    unfold prepare_retrieved_with_texts
    rw [List.get?_map, hj]
    rfl

/-- Witness for C7: an empty readable corpus and a result whose lookup fails. -/
theorem evidence_placeholder_on_failed_lookup_witness :
    (enrichMeta (buildDataMap [])
        (⟨1, 0, ⟨some "x", none, none, none, none, some 0, none, none⟩⟩ :
          SearchResult).metadata).chunk_text = some placeholderText ∧
    wrapFill 500 (passageText (enrichMeta (buildDataMap [])
        (⟨1, 0, ⟨some "x", none, none, none, none, some 0, none, none⟩⟩ :
          SearchResult).metadata)) = placeholderText ∧
    ∀ (results : List SearchResult) (j : Nat),
      results.get? j =
        some (⟨1, 0, ⟨some "x", none, none, none, none, some 0, none, none⟩⟩ :
          SearchResult) →
      (prepare_retrieved_with_texts [] results).get? j =
        some { rank := (⟨1, 0, ⟨some "x", none, none, none, none, some 0, none, none⟩⟩ :
                 SearchResult).rank,
               score := (⟨1, 0, ⟨some "x", none, none, none, none, some 0, none, none⟩⟩ :
                 SearchResult).score,
               metadata := enrichMeta (buildDataMap [])
                 (⟨1, 0, ⟨some "x", none, none, none, none, some 0, none, none⟩⟩ :
                   SearchResult).metadata } :=
  evidence_placeholder_on_failed_lookup []
    ⟨1, 0, ⟨some "x", none, none, none, none, some 0, none, none⟩⟩ rfl rfl

/-- C10: `prepare_retrieved_with_texts` maps the input list one-to-one preserving
length and order; every output item keeps the input's `rank` and `score`, every
metadata field other than `chunk_text` is unchanged, `chunk_text` is always set,
and — when the input metadata carried no `chunk_text`, as retrieval results do —
it is set to exactly the re-joined chunk text if truthy and the placeholder
otherwise.  The input items are only read (the code works on copies). -/
theorem prepare_retrieved_frame (files : List DocRecord) (results : List SearchResult) :
    (prepare_retrieved_with_texts files results).length = results.length ∧
    ∀ (j : Nat) (item : SearchResult), results.get? j = some item →
      ∃ item', (prepare_retrieved_with_texts files results).get? j = some item' ∧
        item'.rank = item.rank ∧
        item'.score = item.score ∧
        item'.metadata.doc_id = item.metadata.doc_id ∧
        item'.metadata.title = item.metadata.title ∧
        item'.metadata.url = item.metadata.url ∧
        item'.metadata.source = item.metadata.source ∧
        item'.metadata.publishedAt = item.metadata.publishedAt ∧
        item'.metadata.chunk_index = item.metadata.chunk_index ∧
        item'.metadata.snippet = item.metadata.snippet ∧
        (item'.metadata.chunk_text).isSome = true ∧
        (item.metadata.chunk_text = none →
          item'.metadata.chunk_text = some
            (match chunkLookup (buildDataMap files) item.metadata with
             | some t => if t = "" then placeholderText else t
             | none => placeholderText)) := by
  constructor
  · simp [prepare_retrieved_with_texts]
  · intro j item hj
    obtain ⟨h1, h2, h3, h4, h5, h6, h7, h8, h9⟩ :=
      enrichMeta_fields (buildDataMap files) item.metadata
    refine ⟨{ rank := item.rank, score := item.score,
              metadata := enrichMeta (buildDataMap files) item.metadata },
      ?_, rfl, rfl, h1, h2, h3, h4, h5, h6, h7, h8, h9⟩
    unfold prepare_retrieved_with_texts
    rw [List.get?_map, hj]
    rfl

/-- Witness for C10 at a concrete corpus and result list. -/
theorem prepare_retrieved_frame_witness :
    (prepare_retrieved_with_texts [⟨some "d", some "t", some "u", none, none, ["c0"]⟩]
        [⟨1, 0, ⟨some "d", some "t", some "u", none, none, some 0, none, none⟩⟩]).length =
      ([⟨1, 0, ⟨some "d", some "t", some "u", none, none, some 0, none, none⟩⟩] :
        List SearchResult).length ∧
    ∀ (j : Nat) (item : SearchResult),
      ([⟨1, 0, ⟨some "d", some "t", some "u", none, none, some 0, none, none⟩⟩] :
        List SearchResult).get? j = some item →
      ∃ item', (prepare_retrieved_with_texts
          [⟨some "d", some "t", some "u", none, none, ["c0"]⟩]
          [⟨1, 0, ⟨some "d", some "t", some "u", none, none, some 0, none, none⟩⟩]).get? j =
            some item' ∧
        item'.rank = item.rank ∧
        item'.score = item.score ∧
        item'.metadata.doc_id = item.metadata.doc_id ∧
        item'.metadata.title = item.metadata.title ∧
        item'.metadata.url = item.metadata.url ∧
        item'.metadata.source = item.metadata.source ∧
        item'.metadata.publishedAt = item.metadata.publishedAt ∧
        item'.metadata.chunk_index = item.metadata.chunk_index ∧
        item'.metadata.snippet = item.metadata.snippet ∧
        (item'.metadata.chunk_text).isSome = true ∧
        (item.metadata.chunk_text = none →
          item'.metadata.chunk_text = some
            (match chunkLookup
                (buildDataMap [⟨some "d", some "t", some "u", none, none, ["c0"]⟩])
                item.metadata with
             | some t => if t = "" then placeholderText else t
             | none => placeholderText)) :=
  prepare_retrieved_frame [⟨some "d", some "t", some "u", none, none, ["c0"]⟩]
    [⟨1, 0, ⟨some "d", some "t", some "u", none, none, some 0, none, none⟩⟩]

/-- C8: fed the byte-for-byte concatenation of the bodies of the two streamed JSON
objects with `response` fragments `"A "` and `"B"` and no separator between them,
the parser extracts both objects in order of occurrence and concatenates their
fragments in arrival order, yielding exactly the string `"A B"`. -/
theorem parser_concatenated_stream :
    assemble_responses_from_objs (extract_json_objects_from_text
      "\x7b\"response\":\"A \"\x7d\x7b\"response\":\"B\"\x7d") = Except.ok "A B" := rfl

theorem find?_filter_ne (st : List (String × DocRecord)) (k key : String) (h : key ≠ k) :
    (st.filter (fun p => !(p.1 == k))).find? (fun p => p.1 == key) =
      st.find? (fun p => p.1 == key) := by
  induction st with
  | nil => rfl
  | cons p st ih =>
    by_cases hp : p.1 = k
    · have hfk : (!(p.1 == k)) = false := by simp [hp]
      have hgk : ¬ ((fun q : String × DocRecord => q.1 == key) p = true) := by
        simp only [beq_iff_eq]
        intro hc
        exact h (by rw [← hc, hp])
      rw [List.filter_cons, hfk, if_neg (by simp),
        List.find?_cons_of_neg st hgk, ih]
    · have hfk : (!(p.1 == k)) = true := by simp [hp]
      rw [List.filter_cons, hfk, if_pos rfl]
      by_cases hg : ((fun q : String × DocRecord => q.1 == key) p = true)
      · rw [List.find?_cons_of_pos (List.filter (fun q => !(q.1 == k)) st) hg,
          List.find?_cons_of_pos st hg]
      · rw [List.find?_cons_of_neg (List.filter (fun q => !(q.1 == k)) st) hg,
          List.find?_cons_of_neg st hg, ih]

/-- Writing one key touches no other key of the store. -/
theorem storeRead_storeWrite (st : List (String × DocRecord)) (k key : String)
    (v : DocRecord) :
    storeRead (storeWrite st k v) key = if key = k then some v else storeRead st key := by
  unfold storeRead storeWrite
  by_cases h : key = k
  · subst h
    rw [if_pos rfl, List.find?_cons_of_pos _ (by simp)]
    rfl
  · rw [if_neg h, List.find?_cons_of_neg _ (by
        simp only [beq_iff_eq]
        exact fun hc => h hc.symm),
      find?_filter_ne st k key h]

/-- The per-article step either skips the article (no truthy URL or full text) or
writes the built record under the URL-derived identifier, for every accumulator. -/
theorem ingestStep_char (extract : String → ExtractResult) (art : FetchedArticle) :
    (∀ acc, ingestStep extract acc art = acc) ∨
    ∃ url ft, art.url = some url ∧ url ≠ "" ∧
      pyOrStr (extract url).text (pyOrStr art.content art.description) = some ft ∧
      ft ≠ "" ∧
      ∀ acc, ingestStep extract acc art =
        (storeWrite acc.1 (doc_id_from_url url) (ingestRecord extract art url ft),
         acc.2 ++ [ingestRecord extract art url ft]) := by
  cases hu : art.url with
  | none => exact Or.inl (fun acc => by unfold ingestStep; rw [hu])
  | some url =>
    by_cases h1 : url = ""
    · exact Or.inl (fun acc => by unfold ingestStep; rw [hu]; dsimp only; rw [if_pos h1])
    · cases hft : pyOrStr (extract url).text (pyOrStr art.content art.description) with
      | none =>
        exact Or.inl (fun acc => by
          unfold ingestStep
          rw [hu]
          dsimp only
          rw [if_neg h1, hft])
      | some ft =>
        by_cases h2 : ft = ""
        · exact Or.inl (fun acc => by
            unfold ingestStep
            rw [hu]
            dsimp only
            rw [if_neg h1, hft]
            dsimp only
            rw [if_pos h2])
        · refine Or.inr ⟨url, ft, rfl, h1, hft, h2, fun acc => by
            unfold ingestStep
            rw [hu]
            dsimp only
            rw [if_neg h1, hft]
            dsimp only
            rw [if_neg h2]⟩

/-- Folding the per-article step from any already-ingested prefix only prepends
that prefix to the run's record list and leaves the final store unchanged. -/
theorem ingestFold_acc (extract : String → ExtractResult) :
    ∀ (arts : List FetchedArticle) (st : List (String × DocRecord))
      (done : List DocRecord),
      arts.foldl (ingestStep extract) (st, done) =
        ((arts.foldl (ingestStep extract) (st, [])).1,
         done ++ (arts.foldl (ingestStep extract) (st, [])).2) := by
  intro arts
  induction arts with
  | nil => intro st done; simp
  | cons art arts ih =>
    intro st done
    rw [List.foldl_cons, List.foldl_cons]
    rcases ingestStep_char extract art with hskip | ⟨url, ft, hu, h1, hft, h2, hw⟩
    · rw [hskip (st, done), hskip (st, [])]
      exact ih st done
    · rw [hw (st, done), hw (st, [])]
      dsimp only
      rw [ih (storeWrite st (doc_id_from_url url) (ingestRecord extract art url ft))
        (done ++ [ingestRecord extract art url ft]),
        ih (storeWrite st (doc_id_from_url url) (ingestRecord extract art url ft))
        ([] ++ [ingestRecord extract art url ft])]
      simp

/-- C9 amended: record identifiers are a deterministic function of the URL alone,
and a run writes only under the identifiers of the articles it actually ingests:
every key not among the run's ingested identifiers reads back exactly as before
the run.  A record whose URL is re-ingested, however, is rewritten with the
freshly extracted content rather than preserved (ingesting one article with a
truthy URL and truthy full text stores the newly built record under its
identifier, overwriting whatever was there). -/
theorem ingest_query_frame (extract : String → ExtractResult)
    (articles : List FetchedArticle) (store : List (String × DocRecord)) :
    (∀ key : String,
      (∀ r ∈ (ingest_query extract articles store).2, r.doc_id ≠ some key) →
      storeRead (ingest_query extract articles store).1 key = storeRead store key) ∧
    ∀ (art : FetchedArticle) (url ft : String), art.url = some url → url ≠ "" →
      pyOrStr (extract url).text (pyOrStr art.content art.description) = some ft →
      ft ≠ "" →
      storeRead (ingest_query extract [art] store).1 (doc_id_from_url url) =
        some (ingestRecord extract art url ft) := by
  constructor
  · unfold ingest_query
    induction articles generalizing store with
    | nil => intro key _; rfl
    | cons art arts ih =>
      intro key hkey
      rw [List.foldl_cons] at hkey ⊢
      rcases ingestStep_char extract art with hskip | ⟨url, ft, hu, h1, hft, h2, hw⟩
      · rw [hskip (store, [])] at hkey ⊢
        exact ih store key hkey
      · rw [hw (store, [])] at hkey ⊢
        dsimp only at hkey ⊢
        rw [ingestFold_acc extract arts _ ([] ++ [ingestRecord extract art url ft])] at hkey
        have hrec : (ingestRecord extract art url ft).doc_id ≠ some key :=
          hkey _ (by simp)
        have hkey' : ∀ r ∈ (arts.foldl (ingestStep extract)
            (storeWrite store (doc_id_from_url url) (ingestRecord extract art url ft),
              [])).2, r.doc_id ≠ some key := by
          intro r hr
          exact hkey r (by simp [hr])
        rw [ingestFold_acc extract arts _ ([] ++ [ingestRecord extract art url ft])]
        dsimp only
        rw [ih _ key hkey', storeRead_storeWrite]
        rw [if_neg ?_]
        intro hc
        exact hrec (by simp [ingestRecord, hc])
  · intro art url ft hu h1 hft h2
    unfold ingest_query
    rw [List.foldl_cons, List.foldl_nil]
    unfold ingestStep
    rw [hu]
    dsimp only
    rw [if_neg h1, hft]
    dsimp only
    rw [if_neg h2]
    dsimp only
    rw [storeRead_storeWrite, if_pos rfl]

/-- C9 counterexample: re-ingesting an already-present URL mutates the record on
disk.  With a record for URL `"u"` already stored under its identifier, one
ingestion run over an article with the same URL whose freshly scraped text
differs replaces the stored record: reading the file back after the run no longer
yields the previously written record, contradicting the claim that an existing
`data/<doc_id>.json` is never mutated by a later run. -/
theorem ingest_overwrites_existing_record :
    storeRead
      (ingest_query
        (fun _ => ⟨some "New", some "new words", none, []⟩)
        [⟨some "u", none, none, none, none, none⟩]
        [(doc_id_from_url "u",
          ⟨some (doc_id_from_url "u"), some "Old", some "u", none, none, ["old"]⟩)]).1
      (doc_id_from_url "u") ≠
    some ⟨some (doc_id_from_url "u"), some "Old", some "u", none, none, ["old"]⟩ := by
  decide

/-- Witness for the amended C9 at a concrete store and article. -/
theorem ingest_query_frame_witness :
    (storeRead (ingest_query (fun _ => ⟨some "T", some "body text", none, []⟩)
        ([] : List FetchedArticle)
        [("zzz", ⟨some "zzz", none, none, none, none, []⟩)]).1 "zzz" =
      storeRead [("zzz", ⟨some "zzz", none, none, none, none, []⟩)] "zzz") ∧
    storeRead (ingest_query (fun _ => ⟨some "T", some "body text", none, []⟩)
        [⟨some "u", none, none, none, none, none⟩]
        ([] : List (String × DocRecord))).1 (doc_id_from_url "u") =
      some (ingestRecord (fun _ => ⟨some "T", some "body text", none, []⟩)
        ⟨some "u", none, none, none, none, none⟩ "u" "body text") :=
  ⟨(ingest_query_frame (fun _ => ⟨some "T", some "body text", none, []⟩) []
      [("zzz", ⟨some "zzz", none, none, none, none, []⟩)]).1 "zzz" (by decide),
   (ingest_query_frame (fun _ => ⟨some "T", some "body text", none, []⟩)
      [⟨some "u", none, none, none, none, none⟩] []).2
      ⟨some "u", none, none, none, none, none⟩ "u" "body text" rfl (by decide) rfl
      (by decide)⟩

/-- C6 counterexample: a corpus with one article file whose `chunks` list is empty
has zero chunks to embed, yet `collect_docs` does not fail — it returns the empty
docs list, so the build path reaches the encoder with an empty corpus instead of
failing fast with a directive to run ingestion. -/
theorem collect_docs_empty_chunks_no_error :
    collect_docs [⟨some "d", some "t", some "u", some "s", some "p", []⟩] =
      Except.ok ([], []) := rfl

/-- C6 amended: `collect_docs` fails fast (with the directive to run ingestion
first) exactly when there are no article files at all; files whose chunk lists
are all empty are not guarded against. -/
theorem collect_docs_error_iff (recs : List DocRecord) :
    (collect_docs [] = Except.error "No json files found in data. Run ingestion first.") ∧
    ((∃ e, collect_docs recs = Except.error e) ↔ recs = []) := by
  constructor
  · rfl
  · constructor
    · rintro ⟨e, he⟩
      by_contra hne
      unfold collect_docs at he
      rw [if_neg hne] at he
      exact absurd he (by simp)
    · intro h
      subst h
      exact ⟨_, rfl⟩

end SNS
